import Mathlib

/-!
Verification of the move-fuzzer repository's natural-language specification
against a shallow embedding of its source code.

Components embedded here:
* the shift-violation tracer (crates/sui-tracer/src/shift_violation_tracer.rs);
* the overlay state view and state manager
  (crates/aptos_move_executor/src/overlay_state_view.rs, state_manager.rs);
* the aptos-fuzzer executor, observers, feedbacks
  (crates/aptos-fuzzer/src/executor/aptos_move_executor.rs, observers.rs,
  feedback.rs, executor/aptos_custom_state.rs);
* the object cache and core fuzzing loop
  (crates/fuzzer-core/src/cache.rs, fuzzer.rs, types.rs).

Machine integers are modelled as `Nat` with explicit `% 2^w` where the Rust
code wraps or casts; fallible operations return `Except`.  Definitions come
first, theorems follow.
-/

set_option autoImplicit false

namespace MoveFuzzer

/-! ### Shift-violation tracer (crates/sui-tracer/src/shift_violation_tracer.rs) -/

/-- Rust `sui_move_vm_types::values::IntegerValue`: a runtime Move integer of
one of the six unsigned widths.  Payloads are `Nat`; `wf` carries the width
bound of the corresponding Rust machine type. -/
inductive IntegerValue where
  | u8 (v : Nat)
  | u16 (v : Nat)
  | u32 (v : Nat)
  | u64 (v : Nat)
  | u128 (v : Nat)
  | u256 (v : Nat)
deriving DecidableEq, Repr

/-- Declared bit width of an `IntegerValue`. -/
def IntegerValue.width : IntegerValue → Nat
  | .u8 _ => 8
  | .u16 _ => 16
  | .u32 _ => 32
  | .u64 _ => 64
  | .u128 _ => 128
  | .u256 _ => 256

/-- Numeric payload of an `IntegerValue`. -/
def IntegerValue.toNat : IntegerValue → Nat
  | .u8 v => v
  | .u16 v => v
  | .u32 v => v
  | .u64 v => v
  | .u128 v => v
  | .u256 v => v

/-- Well-formedness: the payload fits in the declared machine width. -/
def IntegerValue.wf (iv : IntegerValue) : Prop := iv.toNat < 2 ^ iv.width

instance (iv : IntegerValue) : Decidable iv.wf := by
  unfold IntegerValue.wf; infer_instance

/-- Number of leading zero bits of `v` in an `n`-bit unsigned representation,
as computed by Rust `leading_zeros` (`n - bit_length v`; `n` for `v = 0`).
`Nat.size v` is the bit length of `v`. -/
def leadingZerosBits (n v : Nat) : Nat := n - Nat.size v

/-- Leading zeros of an `IntegerValue` in its declared width, the value the
Rust code obtains from `v.leading_zeros()` (a `u32`). -/
def IntegerValue.leadingZeros (iv : IntegerValue) : Nat :=
  leadingZerosBits iv.width iv.toNat

/-- `ShiftViolationTracer::check_truncation` (shift_violation_tracer.rs,
lines 78-89).  The closure is `|leading_zeros: u32| shift_amount >
leading_zeros as u8`; the `as u8` cast reduces the `u32` leading-zero count
modulo 256.  `shiftAmount` models the `u8` parameter (callers pass values
below 256). -/
def checkTruncation (value : IntegerValue) (shiftAmount : Nat) : Bool :=
  decide (shiftAmount > value.leadingZeros % 256)

/-- Shift-amount normalisation performed by
`ShiftViolationTracer::handle_shl_instruction` (shift_violation_tracer.rs,
lines 114-127): `u8` passes through, `u16`/`u32`/`u64`/`u128` are cast with
`as u8` (reduction modulo 256), and `u256` is compared against 255 first
(values at most 255 parse to themselves, larger ones become `u8::MAX`). -/
def normalizeShiftAmount : IntegerValue → Nat
  | .u8 v => v
  | .u16 v => v % 256
  | .u32 v => v % 256
  | .u64 v => v % 256
  | .u128 v => v % 256
  | .u256 v => if v ≤ 255 then v else 255

/-- Core decision of `handle_shl_instruction` on a buffer of popped operands:
with exactly two buffered operands the later push is the value and the
earlier push is the shift amount; the shift amount is normalised to `u8` and
`check_truncation` is applied.  Fewer than two operands produce no
violation. -/
def handleShlViolates : List IntegerValue → Bool
  | [shiftOperand, valueOperand] =>
      checkTruncation valueOperand (normalizeShiftAmount shiftOperand)
  | _ => false

/-! ### OverlayStateView
(crates/aptos_move_executor/src/overlay_state_view.rs and state_manager.rs)

State keys are modelled as `Nat`, state values as their byte contents
`List Nat`.  The base `CachedStateView` is an abstract fallible lookup.
The overlay `HashMap<StateKey, Option<StateValue>>` is modelled as a
function to `Option (Option (List Nat))`: `none` means the key is absent
from the overlay, `some none` is a recorded deletion tombstone. -/

structure OverlayStateViewM where
  base : Nat → Except String (Option (List Nat))
  overlay : Nat → Option (Option (List Nat))

/-- `OverlayStateView::get_state_value` (overlay_state_view.rs, lines 29-34):
an overlay entry (including a tombstone) is returned as-is, otherwise the
base is consulted. -/
def OverlayStateViewM.getStateValue (view : OverlayStateViewM) (stateKey : Nat) :
    Except String (Option (List Nat)) :=
  match view.overlay stateKey with
  | some v => Except.ok v
  | none => view.base stateKey

/-- `HashMap::insert` on the overlay map. -/
def overlayInsert (ov : Nat → Option (Option (List Nat))) (k : Nat)
    (v : Option (List Nat)) : Nat → Option (Option (List Nat)) :=
  fun j => if j = k then some v else ov j

/-- A write set as iterated by `write_op_iter`: an ordered list of
`(state_key, op)` pairs, where the op is its `bytes()` (`none` for a
deletion). -/
abbrev WriteSetEntries := List (Nat × Option (List Nat))

/-- `StateManager::apply_write_set_to_overlay` (state_manager.rs, lines
112-122): each write op is inserted into the overlay in order (deletions as
tombstones). -/
def applyWriteSetToOverlay (view : OverlayStateViewM) (ws : WriteSetEntries) :
    OverlayStateViewM :=
  { view with overlay := ws.foldl (fun ov e => overlayInsert ov e.1 e.2) view.overlay }

/-- The op a write set specifies for key `k`: the last `(k, op)` entry. -/
def lastWriteOp (ws : WriteSetEntries) (k : Nat) : Option (Option (List Nat)) :=
  (ws.reverse.find? (fun e => e.1 == k)).map (fun e => e.2)

/-- Concrete overlay view used to witness the coherence theorem. -/
def overlayViewFixture : OverlayStateViewM where
  base := fun k => if k = 1 then Except.ok none else Except.ok (some [k])
  overlay := fun k => if k = 2 then some (some [9]) else none

/-! ### Edge-coverage map construction
(crates/aptos-fuzzer/src/executor/aptos_move_executor.rs, lines 54-63 and
142-167) -/

/-- `AptosMoveExecutor::hash32` (aptos_move_executor.rs, lines 54-63):
FNV-1a 32-bit over a byte sequence, with wrapping multiplication. -/
def fnv1a32 (bytes : List Nat) : Nat :=
  bytes.foldl (fun hash b => ((hash ^^^ b) * 16777619) % 4294967296) 2166136261

/-- The payload shapes `run_target` builds a coverage base id for: an entry
function (address, module name, function name as byte strings) or a script
(code bytes). -/
inductive PayloadM where
  | entryFunction (moduleAddress moduleName functionName : List Nat)
  | script (code : List Nat)

/-- The per-function base id computed in `run_target` (aptos_move_executor.rs,
lines 149-160): FNV-1a of `module_address || module_name || function_name`
for entry functions, of the code bytes for scripts. -/
def baseIdOf : PayloadM → Nat
  | .entryFunction a m f => fnv1a32 (a ++ m ++ f)
  | .script code => fnv1a32 code

/-- `u8::saturating_add(1)`. -/
def saturatingAddOne (b : Nat) : Nat := min (b + 1) 255

/-- One step of the edge-coverage fold in `run_target` (aptos_move_executor.rs,
lines 161-167): state is the map and `prev_loc`. -/
def coverStep (baseId : Nat) (st : (Nat → Nat) × Nat) (pc : Nat) : (Nat → Nat) × Nat :=
  let curId := baseId ^^^ pc
  let idx := (curId ^^^ st.2) &&& 65535
  (fun i => if i = idx then saturatingAddOne (st.1 i) else st.1 i, curId >>> 1)

/-- The full edge-coverage construction of a successful `run_target`
execution: the map is zeroed, `prev_loc` reset to 0, and the pc trace folded
in order. -/
def runTargetCoverage (payload : PayloadM) (pcs : List Nat) : (Nat → Nat) × Nat :=
  pcs.foldl (coverStep (baseIdOf payload)) (fun _ => 0, 0)

/-- The coverage map after a successful execution. -/
def runTargetCoverageMap (payload : PayloadM) (pcs : List Nat) : Nat → Nat :=
  (runTargetCoverage payload pcs).1

/-- Edge indices exactly as the specification's pseudocode names them:
`current = base_id XOR pc`, `idx = (current XOR previous_location) AND
(SIZE-1)` written as `% 65536`, `previous_location = current SHR 1`. -/
def specEdgeIndices (baseId prevLocation : Nat) : List Nat → List Nat
  | [] => []
  | pc :: rest =>
      let current := baseId ^^^ pc
      ((current ^^^ prevLocation) % 65536) :: specEdgeIndices baseId (current >>> 1) rest

/-- The specification's edge map: each index accumulates a saturating (cap
255) hitcount of the edge indices derived from the pc trace. -/
def specEdgeMap (payload : PayloadM) (pcs : List Nat) : Nat → Nat :=
  fun i => min 255 ((specEdgeIndices (baseIdOf payload) 0 pcs).count i)

/-! ### Aptos custom state and run_target state effect
(crates/aptos-fuzzer/src/executor/aptos_custom_state.rs and
aptos_move_executor.rs) -/

/-- `aptos_types::state_store::state_key::StateKey`, by its `StateKeyInner`
shape as matched in `AptosCustomState::apply_write_set`: a table item, an
access path (with whether it is code and its module id when one can be
extracted), or a raw key. -/
inductive StateKeyM where
  | tableItem (handle : Nat) (key : List Nat)
  | accessPath (isCode : Bool) (moduleId : Option Nat) (rep : Nat)
  | raw (bytes : List Nat)
deriving DecidableEq, Repr

/-- `AptosCustomState` (aptos_custom_state.rs, lines 44-47): the in-memory
key/value state, table storage and module cache. -/
structure AptosCustomStateM where
  kv : StateKeyM → Option (List Nat)
  tables : Nat × List Nat → Option (List Nat)
  modules : Nat → Option (List Nat)

/-- The empty custom state. -/
def emptyAptosCustomState : AptosCustomStateM :=
  { kv := fun _ => none, tables := fun _ => none, modules := fun _ => none }

/-- A write set as applied by `AptosCustomState::apply_write_set`: ordered
`(state_key, op)` pairs, the op being its bytes (`none` deletes). -/
abbrev AptosWriteSet := List (StateKeyM × Option (List Nat))

/-- `AptosCustomState::apply_write_set` (aptos_custom_state.rs, lines
571-620): table items update the table map, access paths update `kv_state`
(and mirror module code into the module cache), raw keys update
`kv_state`. -/
def AptosCustomStateM.applyWriteSet (st : AptosCustomStateM) (ws : AptosWriteSet) :
    AptosCustomStateM :=
  ws.foldl (fun s e =>
    match e.1 with
    | .tableItem handle key =>
        { s with tables := fun p => if p = (handle, key) then e.2 else s.tables p }
    | .accessPath isCode moduleId _ =>
        let s1 : AptosCustomStateM :=
          { s with kv := fun k => if k = e.1 then e.2 else s.kv k }
        if isCode then
          match moduleId with
          | some mid => { s1 with modules := fun m => if m = mid then e.2 else s1.modules m }
          | none => s1
        else s1
    | .raw _ =>
        { s with kv := fun k => if k = e.1 then e.2 else s.kv k }) st

/-- The slice of `AptosFuzzerState` that `run_target` can mutate: the chain
state and the execution counter (state.rs, lines 26-57). -/
structure AptosFuzzerStateM where
  aptosState : AptosCustomStateM
  executions : Nat

/-- The entire effect of `AptosMoveExecutor::run_target`
(aptos_move_executor.rs, lines 130-212) on the fuzzer state: the execution
counter is incremented and nothing else changes — in particular the
returned write set is not applied (the `apply_write_set` call at line 179
is commented out). -/
def runTargetStateEffect (s : AptosFuzzerStateM) : AptosFuzzerStateM :=
  { s with executions := s.executions + 1 }

/-- Fixture: the initial fuzzer state used in the C4 counterexample. -/
def c4StateFixture : AptosFuzzerStateM :=
  { aptosState := emptyAptosCustomState, executions := 0 }

/-- Fixture: a write set writing value `[7]` under the raw key `[5]`. -/
def c4WriteSetFixture : AptosWriteSet := [(.raw [5], some [7])]

/-! ### Executor outcome classification and observers
(crates/aptos-fuzzer/src/executor/aptos_move_executor.rs, observers.rs) -/

/-- The two `libafl::executors::ExitKind` values `run_target` produces. -/
inductive ExitKindM where
  | ok
  | crash
deriving DecidableEq, Repr

/-- `aptos_vm::aptos_vm::ExecOutcomeKind`, the VM outcome taxonomy matched
at aptos_move_executor.rs lines 200-207. -/
inductive ExecOutcomeKindM where
  | ok
  | moveAbort (code : Nat)
  | outOfGas
  | otherError
  | invariantViolation
  | panic
deriving DecidableEq, Repr

/-- `aptos_move_core_types::vm_status::VMStatus`, as matched at
aptos_move_executor.rs line 192: a `MoveAbort(location, code)` or any other
status. -/
inductive VMStatusM where
  | moveAbort (location code : Nat)
  | otherStatus (tag : Nat)
deriving DecidableEq, Repr

/-- `aptos_types::transaction::ExecutionStatus` as matched at
aptos_move_executor.rs line 171. -/
inductive ExecutionStatusM where
  | success
  | moveAbort (code : Nat)
  | otherStatus (tag : Nat)
deriving DecidableEq, Repr

/-- `aptos_types::transaction::TransactionStatus`. -/
inductive TransactionStatusM where
  | keep (es : ExecutionStatusM)
  | discard (tag : Nat)
  | retry
deriving DecidableEq, Repr

/-- `TransactionResult` as built by `execute_transaction`
(aptos_move_executor.rs, lines 96-104). -/
structure TransactionResultM where
  status : TransactionStatusM
  gasUsed : Nat
  writeSet : AptosWriteSet
  events : Nat

/-- The `Ok` result `execute_transaction` constructs: status is always
`Keep(Executed)` (i.e. success), gas 0. -/
def mkSuccessResult (ws : AptosWriteSet) (events : Nat) : TransactionResultM :=
  { status := .keep .success, gasUsed := 0, writeSet := ws, events := events }

/-- `execute_transaction`'s wrapping of the raw VM result (write set and
events on success, `VMStatus` on failure) into a `TransactionResult`. -/
def executeTransactionResult
    (vmResult : Except VMStatusM (AptosWriteSet × Nat)) :
    Except VMStatusM TransactionResultM :=
  match vmResult with
  | .ok (ws, ev) => .ok (mkSuccessResult ws ev)
  | .error e => .error e

/-- The exit kind `run_target` returns (aptos_move_executor.rs, lines
139-211): `Ok` results exit with `Ok`; on error the outcome is matched,
`InvariantViolation` and `Panic` exiting with `Crash` and everything else
with `Ok`. -/
def runTargetExitKind (result : Except VMStatusM TransactionResultM)
    (outcome : ExecOutcomeKindM) : ExitKindM :=
  match result with
  | .ok _ => .ok
  | .error _ =>
      match outcome with
      | .ok => .ok
      | .moveAbort _ => .ok
      | .outOfGas => .ok
      | .otherError => .ok
      | .invariantViolation => .crash
      | .panic => .crash

/-- The value of `AbortCodeObserver.last` after `run_target`
(aptos_move_executor.rs, lines 171-178 and 192-199): both branches
unconditionally overwrite the field, so the previous value
`previousLast` is irrelevant; on the `Ok` branch the constructed status
(always `Keep(Executed)`) is inspected, on the `Err` branch the
`VMStatus`. -/
def runTargetObserverLastAfter (previousLast : Option Nat)
    (vmResult : Except VMStatusM (AptosWriteSet × Nat)) : Option Nat :=
  match executeTransactionResult vmResult with
  | .ok tr =>
      match tr.status with
      | .keep (.moveAbort code) => some code
      | _ => none
  | .error vs =>
      match vs with
      | .moveAbort _ code => some code
      | _ => none

/-! ### Feedback and objective (crates/aptos-fuzzer/src/feedback.rs) -/

/-- `AbortCodeFeedback::is_interesting` (feedback.rs, lines 52-79): crashes
are always kept; otherwise an abort code is interesting iff it has not been
seen, in which case it is added to the seen set.  Returns the decision and
the updated seen set (`HashSet` modelled as a list). -/
def abortCodeFeedbackIsInteresting (seenAbortCodes : List Nat)
    (lastAbort : Option Nat) (exitKind : ExitKindM) : Bool × List Nat :=
  match exitKind with
  | .crash => (true, seenAbortCodes)
  | .ok =>
      match lastAbort with
      | some code =>
          if seenAbortCodes.contains code then (false, seenAbortCodes)
          else (true, code :: seenAbortCodes)
      | none => (false, seenAbortCodes)

/-- `AbortCodeObjective::is_interesting` (feedback.rs, lines 136-168):
crashes are always objectives; otherwise an abort code is an objective iff
the target set is empty or contains it. -/
def abortCodeObjectiveIsInteresting (targetAbortCodes : List Nat)
    (lastAbort : Option Nat) (exitKind : ExitKindM) : Bool :=
  match exitKind with
  | .crash => true
  | .ok =>
      match lastAbort with
      | some code =>
          if targetAbortCodes.isEmpty then true
          else targetAbortCodes.contains code
      | none => false

/-! ### ObjectCache (crates/fuzzer-core/src/cache.rs)

`lru::LruCache<Vec<u8>, Object>` is modelled as an association list ordered
most-recently-used first; digests are byte strings `List Nat`, objects are
abstract `Nat`. -/

/-- `LruCache::put` (used at cache.rs line 63): an existing key is updated
and promoted to the front without eviction; a fresh key is inserted at the
front, evicting the least-recently-used entry (the back) when the cache is
at capacity. -/
def lruPut (cap : Nat) (entries : List (List Nat × Nat)) (key : List Nat)
    (value : Nat) : List (List Nat × Nat) :=
  if entries.any (fun e => e.1 == key) then
    (key, value) :: entries.filter (fun e => !(e.1 == key))
  else
    (key, value) :: (if cap ≤ entries.length then entries.dropLast else entries)

/-- The digests currently stored, most recent first. -/
def lruKeys (entries : List (List Nat × Nat)) : List (List Nat) :=
  entries.map Prod.fst

/-- `ObjectCache` (cache.rs, lines 13-20): per-object-id LRU caches with a
shared per-id capacity. -/
structure ObjectCacheM where
  caches : Nat → List (List Nat × Nat)
  maxVersionsPerObject : Nat

/-- `ObjectCache::new` (cache.rs, lines 23-29): empty, capacity 10000. -/
def ObjectCacheM.new : ObjectCacheM :=
  { caches := fun _ => [], maxVersionsPerObject := 10000 }

/-- `ObjectCache::with_capacity` (cache.rs, lines 31-37). -/
def ObjectCacheM.withCapacity (cap : Nat) : ObjectCacheM :=
  { caches := fun _ => [], maxVersionsPerObject := cap }

/-- `ObjectCache::add_object_with_digest` (cache.rs, lines 54-64): fetch or
create the per-id LRU and `put` the digest/object pair. -/
def addObjectWithDigest (c : ObjectCacheM) (id obj : Nat) (digest : List Nat) :
    ObjectCacheM :=
  { c with caches := fun i =>
      if i = id then lruPut c.maxVersionsPerObject (c.caches id) digest obj
      else c.caches i }

/-! ### Core fuzzing loop (crates/fuzzer-core/src/fuzzer.rs, types.rs) -/

/-- `ViolationInfo` (types.rs, lines 39-45). -/
structure ViolationInfoM where
  location : String
  operation : String
  leftOperand : Nat
  rightOperand : Nat
deriving DecidableEq, Repr

/-- `FuzzingStatus` (types.rs, lines 69-75). -/
inductive FuzzingStatusM where
  | inProgress
  | violationFound
  | noViolationFound
  | error (msg : String)
deriving DecidableEq, Repr

/-- `FuzzingResult` (types.rs, lines 78-84). -/
structure FuzzingResultM where
  status : FuzzingStatusM
  violations : List ViolationInfoM
  iterationsCompleted : Nat
  totalIterations : Nat
deriving DecidableEq, Repr

/-- `FuzzingResult::violation_found` (types.rs, lines 87-94). -/
def FuzzingResultM.violationFound (violations : List ViolationInfoM)
    (iterations : Nat) : FuzzingResultM :=
  { status := .violationFound, violations := violations,
    iterationsCompleted := iterations, totalIterations := iterations }

/-- `FuzzingResult::no_violation_found` (types.rs, lines 96-103). -/
def FuzzingResultM.noViolationFound : FuzzingResultM :=
  { status := .noViolationFound, violations := [],
    iterationsCompleted := 0, totalIterations := 0 }

/-- The `ChainAdapter` operations `CoreFuzzer::fuzzing_loop` calls
(fuzzer-core/src/lib.rs): parameters and execution results are abstract
(`Nat`); `updateCachedObjects` abstracts `update_cached_objects`
(fuzzer.rs, lines 151-174, random draws included) as a function of the
parameters and the cache contents, `mutateParameters` abstracts
`mutate_parameters` (fuzzer.rs, lines 176-190). -/
structure CoreAdapterM where
  execute : Nat → Except String Nat
  extractObjectChanges : Nat → List (Nat × Nat)
  computeObjectDigest : Nat → List Nat
  hasShiftViolations : Nat → Bool
  extractViolations : Nat → List ViolationInfoM
  updateCachedObjects : Nat → (Nat → List (List Nat × Nat)) → Nat
  mutateParameters : Nat → Nat

/-- `ObjectCache::process_changes` (cache.rs, lines 39-52): each reported
`(id, object)` change is added under its adapter-computed digest. -/
def processChanges (A : CoreAdapterM) (cache : ObjectCacheM)
    (changes : List (Nat × Nat)) : ObjectCacheM :=
  changes.foldl
    (fun c ch => addObjectWithDigest c ch.1 ch.2 (A.computeObjectDigest ch.2)) cache

/-- The loop-carried state of `CoreFuzzer::fuzzing_loop`: current
parameters and the object cache. -/
structure LoopStateM where
  params : Nat
  cache : ObjectCacheM

/-- Instrumentation counting executions performed and mutation steps
(`update_cached_objects` + `mutate_parameters`) taken. -/
structure LoopStatsM where
  execs : Nat
  mutations : Nat
deriving DecidableEq, Repr

/-- `CoreFuzzer::fuzzing_loop` (fuzzer.rs, lines 94-148) over the remaining
iteration numbers: execute, update the cache from the object changes (only
when non-empty), return `violation_found` at the first shift violation,
otherwise mutate (only when not the last iteration) and continue; an
execution error propagates. -/
def fuzzingLoopGo (A : CoreAdapterM) (maxIterations : Nat) :
    List Nat → LoopStateM → LoopStatsM →
      Except String (FuzzingResultM × LoopStateM × LoopStatsM)
  | [], st, stats => .ok (FuzzingResultM.noViolationFound, st, stats)
  | iteration :: rest, st, stats =>
      match A.execute st.params with
      | .error e => .error e
      | .ok r =>
          let stats1 : LoopStatsM := { stats with execs := stats.execs + 1 }
          let changes := A.extractObjectChanges r
          let st1 : LoopStateM :=
            if changes.isEmpty then st
            else { st with cache := processChanges A st.cache changes }
          if A.hasShiftViolations r then
            .ok (FuzzingResultM.violationFound (A.extractViolations r) iteration,
              st1, stats1)
          else
            let st2 : LoopStateM :=
              if iteration < maxIterations then
                { st1 with
                  params := A.mutateParameters (A.updateCachedObjects st1.params st1.cache.caches) }
              else st1
            let stats2 : LoopStatsM :=
              if iteration < maxIterations then
                { stats1 with mutations := stats1.mutations + 1 }
              else stats1
            fuzzingLoopGo A maxIterations rest st2 stats2

/-- The fuzzing loop over iterations `1..=max_iterations`, starting from a
fresh default-capacity cache (`CoreFuzzer::new`, fuzzer.rs line 32). -/
def fuzzingLoop (A : CoreAdapterM) (maxIterations initialParams : Nat) :
    Except String (FuzzingResultM × LoopStateM × LoopStatsM) :=
  fuzzingLoopGo A maxIterations (List.range' 1 maxIterations)
    { params := initialParams, cache := ObjectCacheM.new }
    { execs := 0, mutations := 0 }

/-- The state transition of one clean (non-violating, successfully
executed) iteration of the loop. -/
def iterAdvance (A : CoreAdapterM) (maxIterations iteration : Nat)
    (st : LoopStateM) : LoopStateM :=
  match A.execute st.params with
  | .error _ => st
  | .ok r =>
      let changes := A.extractObjectChanges r
      let st1 : LoopStateM :=
        if changes.isEmpty then st
        else { st with cache := processChanges A st.cache changes }
      if iteration < maxIterations then
        { st1 with
          params := A.mutateParameters (A.updateCachedObjects st1.params st1.cache.caches) }
      else st1

/-- The loop state at the start of iteration `j + 1`, assuming the first
`j` iterations were clean. -/
def trajAux (A : CoreAdapterM) (maxIterations initialParams : Nat) :
    Nat → LoopStateM
  | 0 => { params := initialParams, cache := ObjectCacheM.new }
  | j + 1 => iterAdvance A maxIterations (j + 1)
      (trajAux A maxIterations initialParams j)

/-- Concrete adapter used to witness the first-violation theorem: executing
returns the parameters themselves, a violation fires exactly on result 2,
mutation increments the parameters. -/
def c10Adapter : CoreAdapterM :=
  { execute := fun p => .ok p
    extractObjectChanges := fun _ => []
    computeObjectDigest := fun o => [o]
    hasShiftViolations := fun r => decide (r = 2)
    extractViolations := fun r => [⟨"m::f", "Shl", r, 0⟩]
    updateCachedObjects := fun p _ => p
    mutateParameters := fun p => p + 1 }

/-! ### Theorems -/

/-- C1 (code bug evidence): the tracer flags the pair `(0, 1)` at width u256
although 1 is not greater than the 256 leading zero bits of the value 0:
the `as u8` cast in `check_truncation` wraps the leading-zero count 256 to 0.
For every width up to u128 the check agrees with
`s > leading_zeros_bits(v)`, shown here for u128 at its extremes. -/
theorem checkTruncation_u256_zero_cast_bug :
    checkTruncation (.u256 0) 1 = true
    ∧ ¬ (1 > leadingZerosBits 256 0)
    ∧ leadingZerosBits 256 0 = 256
    ∧ checkTruncation (.u128 0) 129 = decide (129 > leadingZerosBits 128 0)
    ∧ checkTruncation (.u128 1) 128 = decide (128 > leadingZerosBits 128 1) := by
  refine ⟨?_, ?_, ?_, ?_, ?_⟩ <;>
    simp [checkTruncation, IntegerValue.leadingZeros, leadingZerosBits,
      IntegerValue.width, IntegerValue.toNat, Nat.size_zero]

/-- C5 (counterexample): normalisation is not saturating for a `u16` shift
operand: the original value 256 exceeds 255, so the claim requires the
normalised amount to be 255, but the `as u8` cast yields 0. -/
theorem normalizeShiftAmount_u16_not_saturating :
    normalizeShiftAmount (.u16 256) = 0
    ∧ normalizeShiftAmount (.u16 256) ≠ 255 := by
  constructor <;> simp [normalizeShiftAmount]

/-- C5 (amended): the tracer normalises the shift operand to `u8` before
applying the truncation check, but the normalisation is saturating only for
`u256` operands (`min v 255`); for every narrower width the value is reduced
modulo 256 (`as u8` truncation; for a well-formed `u8` operand this is the
identity). -/
theorem shl_normalisation_amended (a b : IntegerValue) (ha : a.wf) :
    normalizeShiftAmount a =
      (if a.width = 256 then min a.toNat 255 else a.toNat % 256)
    ∧ handleShlViolates [a, b] =
        checkTruncation b (normalizeShiftAmount a) := by
  refine ⟨?_, rfl⟩
  cases a with
  | u8 v =>
      have hv : v < 256 := by
        simpa [IntegerValue.wf, IntegerValue.toNat, IntegerValue.width] using ha
      simp [normalizeShiftAmount, IntegerValue.width, IntegerValue.toNat,
        Nat.mod_eq_of_lt hv]
  | u16 v => simp [normalizeShiftAmount, IntegerValue.width, IntegerValue.toNat]
  | u32 v => simp [normalizeShiftAmount, IntegerValue.width, IntegerValue.toNat]
  | u64 v => simp [normalizeShiftAmount, IntegerValue.width, IntegerValue.toNat]
  | u128 v => simp [normalizeShiftAmount, IntegerValue.width, IntegerValue.toNat]
  | u256 v =>
      simp only [normalizeShiftAmount, IntegerValue.width, IntegerValue.toNat]
      rw [if_pos trivial]
      split <;> omega

/-- C5 witness: the amended statement at the concrete operands
`(u16 300, u8 255)`. -/
theorem shl_normalisation_amended_witness :
    (IntegerValue.u16 300).wf
    ∧ (normalizeShiftAmount (.u16 300) =
        (if (IntegerValue.u16 300).width = 256
          then min (IntegerValue.u16 300).toNat 255
          else (IntegerValue.u16 300).toNat % 256)
      ∧ handleShlViolates [.u16 300, .u8 255] =
          checkTruncation (.u8 255) (normalizeShiftAmount (.u16 300))) :=
  ⟨by decide, shl_normalisation_amended (.u16 300) (.u8 255) (by decide)⟩

theorem foldl_overlayInsert_lookup (ws : WriteSetEntries)
    (ov : Nat → Option (Option (List Nat))) (k : Nat) :
    (ws.foldl (fun o e => overlayInsert o e.1 e.2) ov) k
      = match lastWriteOp ws k with
        | some op => some op
        | none => ov k := by
  induction ws using List.reverseRecOn generalizing ov with
  | nil => simp [lastWriteOp]
  | append_singleton ws e ih =>
      have hrev : (ws ++ [e]).reverse = e :: ws.reverse := by simp
      by_cases hk : e.1 = k
      · have hfind : lastWriteOp (ws ++ [e]) k = some e.2 := by
          simp [lastWriteOp, hrev, hk]
        rw [hfind]
        simp [List.foldl_append, overlayInsert, hk]
      · have hbeq : (e.1 == k) = false := by simpa using hk
        have hfind : lastWriteOp (ws ++ [e]) k = lastWriteOp ws k := by
          simp [lastWriteOp, hrev, List.find?, hbeq]
        rw [hfind, List.foldl_append]
        simp only [List.foldl_cons, List.foldl_nil]
        have hne : ¬ (k = e.1) := fun h => hk h.symm
        have hov : overlayInsert (ws.foldl (fun o e => overlayInsert o e.1 e.2) ov) e.1 e.2 k
            = (ws.foldl (fun o e => overlayInsert o e.1 e.2) ov) k := by
          simp [overlayInsert, hne]
        rw [hov]
        exact ih ov

/-- C2: `get` returns the overlay entry when one exists (tombstones
included), otherwise the base result; when the base lookup succeeds `get`
never fails; and after applying a write set, `get` returns exactly the op
the write set specified for every key it wrote. -/
theorem overlay_state_view_coherence (view : OverlayStateViewM) (k : Nat) :
    (∀ v, view.overlay k = some v →
      view.getStateValue k = Except.ok v)
    ∧ (view.overlay k = none → view.getStateValue k = view.base k)
    ∧ (∀ b, view.overlay k = none → view.base k = Except.ok b →
        view.getStateValue k = Except.ok b)
    ∧ (∀ (ws : WriteSetEntries) (op : Option (List Nat)),
        lastWriteOp ws k = some op →
        (applyWriteSetToOverlay view ws).getStateValue k = Except.ok op) := by
  refine ⟨?_, ?_, ?_, ?_⟩
  · intro v hv; simp [OverlayStateViewM.getStateValue, hv]
  · intro hnone; simp [OverlayStateViewM.getStateValue, hnone]
  · intro b hnone hb; simp [OverlayStateViewM.getStateValue, hnone, hb]
  · intro ws op hop
    have h := foldl_overlayInsert_lookup ws view.overlay k
    rw [hop] at h
    simp [OverlayStateViewM.getStateValue, applyWriteSetToOverlay, h]

/-- C2 witness: concrete reads on `overlayViewFixture` — an overlay hit, a
base fall-through, and a read-back of an applied write set (including a
deletion tombstone). -/
theorem overlay_state_view_coherence_witness :
    overlayViewFixture.getStateValue 2 = Except.ok (some [9])
    ∧ overlayViewFixture.getStateValue 1 = Except.ok none
    ∧ (applyWriteSetToOverlay overlayViewFixture [(5, some [7]), (6, none)]).getStateValue 5
        = Except.ok (some [7])
    ∧ (applyWriteSetToOverlay overlayViewFixture [(5, some [7]), (6, none)]).getStateValue 6
        = Except.ok none :=
  ⟨(overlay_state_view_coherence overlayViewFixture 2).1 (some [9]) rfl,
   (overlay_state_view_coherence overlayViewFixture 1).2.2.1 none rfl rfl,
   (overlay_state_view_coherence overlayViewFixture 5).2.2.2
     [(5, some [7]), (6, none)] (some [7]) rfl,
   (overlay_state_view_coherence overlayViewFixture 6).2.2.2
     [(5, some [7]), (6, none)] none rfl⟩

theorem and_65535_eq_mod (x : Nat) : x &&& 65535 = x % 65536 := by
  have h := Nat.and_pow_two_sub_one_eq_mod x 16
  norm_num at h
  exact h

theorem specEdgeIndices_lt (baseId : Nat) :
    ∀ (pcs : List Nat) (prev : Nat) (i : Nat),
      i ∈ specEdgeIndices baseId prev pcs → i < 65536 := by
  intro pcs
  induction pcs with
  | nil => intro prev i h; simp [specEdgeIndices] at h
  | cons pc rest ih =>
      intro prev i h
      simp only [specEdgeIndices, List.mem_cons] at h
      rcases h with h | h
      · subst h; exact Nat.mod_lt _ (by norm_num)
      · exact ih _ i h

theorem coverFold_count (baseId : Nat) :
    ∀ (pcs : List Nat) (mp : Nat → Nat) (prev : Nat) (cnt : Nat → Nat),
      (∀ i, mp i = min 255 (cnt i)) →
      ∀ i, (pcs.foldl (coverStep baseId) (mp, prev)).1 i
        = min 255 (cnt i + (specEdgeIndices baseId prev pcs).count i) := by
  intro pcs
  induction pcs with
  | nil => intro mp prev cnt h i; simp [specEdgeIndices, h i]
  | cons pc rest ih =>
      intro mp prev cnt h i
      have hidx : ((baseId ^^^ pc) ^^^ prev) &&& 65535
          = ((baseId ^^^ pc) ^^^ prev) % 65536 := and_65535_eq_mod _
      have h2 : ∀ j, (if j = ((baseId ^^^ pc) ^^^ prev) % 65536
            then saturatingAddOne (mp j) else mp j)
          = min 255 (if j = ((baseId ^^^ pc) ^^^ prev) % 65536
              then cnt j + 1 else cnt j) := by
        intro j
        by_cases hj : j = ((baseId ^^^ pc) ^^^ prev) % 65536
        · rw [if_pos hj, if_pos hj, h j]
          unfold saturatingAddOne
          omega
        · rw [if_neg hj, if_neg hj]
          exact h j
      have hres := ih (fun j => if j = ((baseId ^^^ pc) ^^^ prev) % 65536
            then saturatingAddOne (mp j) else mp j) ((baseId ^^^ pc) >>> 1)
          (fun j => if j = ((baseId ^^^ pc) ^^^ prev) % 65536
            then cnt j + 1 else cnt j) h2 i
      have hstep : List.foldl (coverStep baseId) (mp, prev) (pc :: rest)
          = List.foldl (coverStep baseId)
              (fun j => if j = ((baseId ^^^ pc) ^^^ prev) % 65536
                then saturatingAddOne (mp j) else mp j, (baseId ^^^ pc) >>> 1) rest := by
        rw [List.foldl_cons]
        congr 1
        simp [coverStep, hidx]
      rw [hstep, hres]
      have hcnt : (specEdgeIndices baseId prev (pc :: rest)).count i
          = (specEdgeIndices baseId ((baseId ^^^ pc) >>> 1) rest).count i
            + (if ((baseId ^^^ pc) ^^^ prev) % 65536 = i then 1 else 0) := by
        simp [specEdgeIndices, List.count_cons]
      rw [hcnt]
      by_cases hi : i = ((baseId ^^^ pc) ^^^ prev) % 65536
      · simp only [if_pos hi, if_pos hi.symm]
        omega
      · have hi2 : ¬ (((baseId ^^^ pc) ^^^ prev) % 65536 = i) := fun h => hi h.symm
        simp only [if_neg hi, if_neg hi2]
        omega

/-- C3: for every successful execution the coverage map built by
`run_target` (zeroed map, `previous_location = 0`, in-order fold computing
`current = base_id XOR pc`, `idx = (current XOR previous_location) AND
(SIZE-1)`, saturating increment, `previous_location = current SHR 1`)
equals the specification's saturating edge-hitcount map; the map is zero
outside `[0, 65536)`; and the base id is the FNV-1a 32-bit hash of
`module_address || module_name || function_name` for entry functions and of
the script bytes for scripts. -/
theorem edge_coverage_map_construction (payload : PayloadM) (pcs : List Nat) :
    runTargetCoverageMap payload pcs = specEdgeMap payload pcs
    ∧ (∀ i, 65536 ≤ i → runTargetCoverageMap payload pcs i = 0)
    ∧ (∀ a m f, baseIdOf (.entryFunction a m f) = fnv1a32 (a ++ m ++ f))
    ∧ (∀ code, baseIdOf (.script code) = fnv1a32 code) := by
  have hmain : runTargetCoverageMap payload pcs = specEdgeMap payload pcs := by
    funext i
    have h := coverFold_count (baseIdOf payload) pcs (fun _ => 0) 0 (fun _ => 0)
      (fun _ => by simp) i
    simpa [runTargetCoverageMap, runTargetCoverage, specEdgeMap] using h
  refine ⟨hmain, ?_, fun a m f => rfl, fun code => rfl⟩
  intro i hi
  rw [hmain]
  have hnot : i ∉ specEdgeIndices (baseIdOf payload) 0 pcs := by
    intro hmem
    exact absurd (specEdgeIndices_lt (baseIdOf payload) pcs 0 i hmem) (by omega)
  simp [specEdgeMap, List.count_eq_zero_of_not_mem hnot]

/-- C4 (counterexample): after an execution returning a write set that
writes `[7]` under key `raw [5]`, the state seen by the next iteration does
not contain the write — applying the write set would have made the key read
back `some [7]`, but `run_target` leaves the chain state untouched. -/
theorem run_target_does_not_commit_writeset :
    (runTargetStateEffect c4StateFixture).aptosState.kv (.raw [5]) = none
    ∧ (c4StateFixture.aptosState.applyWriteSet c4WriteSetFixture).kv (.raw [5]) = some [7]
    ∧ (runTargetStateEffect c4StateFixture).aptosState.kv (.raw [5])
        ≠ (c4StateFixture.aptosState.applyWriteSet c4WriteSetFixture).kv (.raw [5]) := by
  refine ⟨rfl, ?_, ?_⟩ <;>
    simp [runTargetStateEffect, c4StateFixture, c4WriteSetFixture,
      AptosCustomStateM.applyWriteSet, emptyAptosCustomState]

/-- C4 (amended): `run_target` does not commit the returned write set at
all: its only effect on the fuzzer state is incrementing the execution
counter, and the chain state (overlay) is left exactly as it was, so every
subsequent iteration observes the pre-state of all previous iterations
(the `apply_write_set` call is commented out in the source). -/
theorem run_target_state_effect_amended (s : AptosFuzzerStateM) :
    (runTargetStateEffect s).aptosState = s.aptosState
    ∧ (runTargetStateEffect s).executions = s.executions + 1 :=
  ⟨rfl, rfl⟩

/-- C6 (counterexample): on a crash execution with no abort code the
feedback reports interesting even though `last_abort` is `None`, refuting
the claimed "interesting iff `last_abort` is a fresh `Some(code)`". -/
theorem abort_feedback_crash_short_circuit :
    (abortCodeFeedbackIsInteresting [] none ExitKindM.crash).1 = true
    ∧ (none : Option Nat).isSome = false :=
  ⟨rfl, rfl⟩

/-- C6 (amended): the feedback reports interesting iff the exit kind is
`Crash` or `last_abort` is `Some(code)` with `code` not in the seen set; on
a non-crash promotion the code is added to the seen set, and re-evaluating
any input producing the same abort code with a non-crash exit is never
interesting a second time. -/
theorem abort_feedback_amended (seen : List Nat) (last : Option Nat)
    (ek : ExitKindM) :
    ((abortCodeFeedbackIsInteresting seen last ek).1 = true
      ↔ ek = .crash ∨ ∃ c, last = some c ∧ seen.contains c = false)
    ∧ (∀ c, ek = .ok → last = some c → seen.contains c = false →
        (abortCodeFeedbackIsInteresting seen last ek).2 = c :: seen)
    ∧ (∀ c, ek = .ok → last = some c →
        (abortCodeFeedbackIsInteresting
          (abortCodeFeedbackIsInteresting seen last ek).2 last .ok).1 = false) := by
  cases ek with
  | crash =>
      refine ⟨by simp [abortCodeFeedbackIsInteresting], ?_, ?_⟩
      · intro c h; cases h
      · intro c h; cases h
  | ok =>
      cases last with
      | none =>
          refine ⟨?_, ?_, ?_⟩
          · simp [abortCodeFeedbackIsInteresting]
          · intro c _ h; cases h
          · intro c _ h; cases h
      | some c0 =>
          by_cases hc : seen.contains c0 = true
          · refine ⟨?_, ?_, ?_⟩
            · simp only [abortCodeFeedbackIsInteresting, if_pos hc]
              constructor
              · intro h; cases h
              · rintro (h | ⟨c, hc1, hc2⟩)
                · cases h
                · have : c = c0 := by injection hc1.symm
                  subst this
                  rw [hc] at hc2
                  cases hc2
            · intro c _ hlast hfresh
              have : c = c0 := by injection hlast.symm
              subst this
              rw [hc] at hfresh
              cases hfresh
            · intro c _ hlast
              have : c = c0 := by injection hlast.symm
              subst this
              simp only [abortCodeFeedbackIsInteresting, if_pos hc]
          · refine ⟨?_, ?_, ?_⟩
            · simp only [abortCodeFeedbackIsInteresting, if_neg hc]
              constructor
              · intro _
                exact Or.inr ⟨c0, rfl, by simpa using hc⟩
              · intro _; trivial
            · intro c _ hlast _
              have : c = c0 := by injection hlast.symm
              subst this
              simp only [abortCodeFeedbackIsInteresting, if_neg hc]
            · intro c _ hlast
              have : c = c0 := by injection hlast.symm
              subst this
              simp only [abortCodeFeedbackIsInteresting, if_neg hc]
              rw [if_pos (by simp)]

/-- C6 witness: the amended statement at seen set `[3]`, abort code 7,
non-crash exit — interesting once, the code is recorded, and a second
evaluation is no longer interesting. -/
theorem abort_feedback_amended_witness :
    (abortCodeFeedbackIsInteresting [3] (some 7) ExitKindM.ok).1 = true
    ∧ (abortCodeFeedbackIsInteresting [3] (some 7) ExitKindM.ok).2 = 7 :: [3]
    ∧ (abortCodeFeedbackIsInteresting
        (abortCodeFeedbackIsInteresting [3] (some 7) ExitKindM.ok).2
        (some 7) ExitKindM.ok).1 = false :=
  ⟨(abort_feedback_amended [3] (some 7) .ok).1.mpr
      (Or.inr ⟨7, rfl, by decide⟩),
   (abort_feedback_amended [3] (some 7) .ok).2.1 7 rfl rfl (by decide),
   (abort_feedback_amended [3] (some 7) .ok).2.2 7 rfl rfl⟩

/-- C7: under the VM contract that crash outcomes (`InvariantViolation`,
`Panic`) are reported through the error result, `run_target` exits with
`Crash` exactly on those two outcomes (all of `Ok`, `MoveAbort`, `OutOfGas`,
`OtherError` exit with `Ok`), and the abort-code objective reports every
crash exit as an objective. -/
theorem crash_classification_and_promotion
    (result : Except VMStatusM TransactionResultM) (outcome : ExecOutcomeKindM)
    (hvm : (outcome = .invariantViolation ∨ outcome = .panic) →
      ∃ e, result = Except.error e) :
    (runTargetExitKind result outcome = .crash
      ↔ (outcome = .invariantViolation ∨ outcome = .panic))
    ∧ (∀ targets last, abortCodeObjectiveIsInteresting targets last .crash = true) := by
  constructor
  · constructor
    · intro h
      cases result with
      | ok tr => simp [runTargetExitKind] at h
      | error e => cases outcome <;> simp_all [runTargetExitKind]
    · intro h
      obtain ⟨e, he⟩ := hvm h
      subst he
      rcases h with h | h <;> subst h <;> rfl
  · intro targets last
    rfl

/-- C7 witness: a panic outcome with an error result exits with `Crash`,
and the objective promotes a concrete crash execution. -/
theorem crash_classification_and_promotion_witness :
    (runTargetExitKind (Except.error (VMStatusM.otherStatus 0))
        ExecOutcomeKindM.panic = .crash
      ↔ (ExecOutcomeKindM.panic = .invariantViolation
          ∨ ExecOutcomeKindM.panic = .panic))
    ∧ abortCodeObjectiveIsInteresting [] none .crash = true :=
  ⟨(crash_classification_and_promotion (Except.error (VMStatusM.otherStatus 0))
      ExecOutcomeKindM.panic (fun _ => ⟨VMStatusM.otherStatus 0, rfl⟩)).1,
   (crash_classification_and_promotion (Except.error (VMStatusM.otherStatus 0))
      ExecOutcomeKindM.panic (fun _ => ⟨VMStatusM.otherStatus 0, rfl⟩)).2 [] none⟩

/-- C8: the abort observer's value after `run_target` does not depend on
its previous value (the field is unconditionally overwritten before any
feedback runs, so no stale abort code is ever visible), and under the VM
contract coupling outcomes with statuses it is `Some(code)` iff the
execution's outcome is `MoveAbort(code)`. -/
theorem abort_observer_contract (prev : Option Nat)
    (vmResult : Except VMStatusM (AptosWriteSet × Nat))
    (outcome : ExecOutcomeKindM)
    (hvm : ∀ code, outcome = .moveAbort code
      ↔ ∃ loc, vmResult = .error (.moveAbort loc code)) :
    (∀ code, runTargetObserverLastAfter prev vmResult = some code
      ↔ outcome = .moveAbort code)
    ∧ (∀ prev2 : Option Nat,
        runTargetObserverLastAfter prev vmResult
          = runTargetObserverLastAfter prev2 vmResult) := by
  refine ⟨?_, fun prev2 => rfl⟩
  intro code
  cases vmResult with
  | ok pr =>
      obtain ⟨ws, ev⟩ := pr
      constructor
      · intro h
        simp [runTargetObserverLastAfter, executeTransactionResult,
          mkSuccessResult] at h
      · intro h
        obtain ⟨loc, hl⟩ := (hvm code).mp h
        cases hl
  | error vs =>
      cases vs with
      | moveAbort loc c =>
          constructor
          · intro h
            have hc : c = code := by
              simpa [runTargetObserverLastAfter, executeTransactionResult] using h
            subst hc
            exact (hvm c).mpr ⟨loc, rfl⟩
          · intro h
            obtain ⟨loc2, hl⟩ := (hvm code).mp h
            have : VMStatusM.moveAbort loc c = VMStatusM.moveAbort loc2 code := by
              injection hl
            have hc : c = code := by injection this
            subst hc
            rfl
      | otherStatus t =>
          constructor
          · intro h
            simp [runTargetObserverLastAfter, executeTransactionResult] at h
          · intro h
            obtain ⟨loc2, hl⟩ := (hvm code).mp h
            have : VMStatusM.otherStatus t = VMStatusM.moveAbort loc2 code := by
              injection hl
            cases this

/-- C8 witness: a stale previous value `some 99` is invisible — after an
aborting execution with code 7 the observer reports exactly `some 7`, and
the after-value agrees with a run whose previous value was `none`. -/
theorem abort_observer_contract_witness :
    (runTargetObserverLastAfter (some 99)
        (Except.error (VMStatusM.moveAbort 0 7)) = some 7
      ↔ ExecOutcomeKindM.moveAbort 7 = .moveAbort 7)
    ∧ runTargetObserverLastAfter (some 99)
        (Except.error (VMStatusM.moveAbort 0 7))
        = runTargetObserverLastAfter none
            (Except.error (VMStatusM.moveAbort 0 7)) :=
  ⟨(abort_observer_contract (some 99) (Except.error (VMStatusM.moveAbort 0 7))
      (ExecOutcomeKindM.moveAbort 7)
      (fun code => ⟨fun h => by cases h; exact ⟨0, rfl⟩,
        fun h => by
          obtain ⟨loc, hl⟩ := h
          have h1 : VMStatusM.moveAbort 0 7 = VMStatusM.moveAbort loc code := by
            injection hl
          have h2 : (7 : Nat) = code := by injection h1
          rw [h2]⟩)).1 7,
   (abort_observer_contract (some 99) (Except.error (VMStatusM.moveAbort 0 7))
      (ExecOutcomeKindM.moveAbort 7)
      (fun code => ⟨fun h => by cases h; exact ⟨0, rfl⟩,
        fun h => by
          obtain ⟨loc, hl⟩ := h
          have h1 : VMStatusM.moveAbort 0 7 = VMStatusM.moveAbort loc code := by
            injection hl
          have h2 : (7 : Nat) = code := by injection h1
          rw [h2]⟩)).2 none⟩

theorem lruPut_preserves (cap : Nat) (l : List (List Nat × Nat)) (k : List Nat)
    (v : Nat) (hcap : 1 ≤ cap) (hnd : (lruKeys l).Nodup) (hlen : l.length ≤ cap) :
    (lruKeys (lruPut cap l k v)).Nodup ∧ (lruPut cap l k v).length ≤ cap := by
  by_cases hmem : l.any (fun e => e.1 == k) = true
  · constructor
    · simp only [lruPut, if_pos hmem, lruKeys, List.map_cons]
      refine List.nodup_cons.mpr ⟨?_, ?_⟩
      · intro hk
        obtain ⟨e, hef, he1⟩ := List.mem_map.mp hk
        have h2 := (List.mem_filter.mp hef).2
        rw [he1] at h2
        simp at h2
      · exact ((List.filter_sublist l).map Prod.fst).nodup hnd
    · obtain ⟨x, hx, hxk⟩ := List.any_eq_true.mp hmem
      have hex : ∃ e ∈ l, ¬ ((fun e => !(e.1 == k)) e = true) := by
        exact ⟨x, hx, by simp [hxk]⟩
      have hlt := List.length_filter_lt_length_iff_exists.mpr hex
      simp only [lruPut, if_pos hmem, List.length_cons]
      omega
  · have hnotin : k ∉ lruKeys l := by
      intro hk
      obtain ⟨e, he, he1⟩ := List.mem_map.mp hk
      exact hmem (List.any_eq_true.mpr ⟨e, he, by simp [he1]⟩)
    constructor
    · simp only [lruPut, if_neg hmem, lruKeys, List.map_cons]
      refine List.nodup_cons.mpr ⟨?_, ?_⟩
      · intro hk
        by_cases hc : cap ≤ l.length
        · rw [if_pos hc] at hk
          exact hnotin (((List.dropLast_sublist l).map Prod.fst).mem hk)
        · rw [if_neg hc] at hk
          exact hnotin hk
      · by_cases hc : cap ≤ l.length
        · rw [if_pos hc]
          exact ((List.dropLast_sublist l).map Prod.fst).nodup hnd
        · rw [if_neg hc]
          exact hnd
    · simp only [lruPut, if_neg hmem, List.length_cons]
      by_cases hc : cap ≤ l.length
      · rw [if_pos hc]
        rw [List.length_dropLast]
        omega
      · rw [if_neg hc]
        omega

theorem objectCache_fold_inv (cap : Nat) (hcap : 1 ≤ cap)
    (ops : List (Nat × Nat × List Nat)) :
    ∀ (c : ObjectCacheM), c.maxVersionsPerObject = cap →
      (∀ id, (lruKeys (c.caches id)).Nodup ∧ (c.caches id).length ≤ cap) →
      ∀ id,
        (lruKeys ((ops.foldl
          (fun c op => addObjectWithDigest c op.1 op.2.1 op.2.2) c).caches id)).Nodup
        ∧ ((ops.foldl
          (fun c op => addObjectWithDigest c op.1 op.2.1 op.2.2) c).caches id).length ≤ cap := by
  induction ops with
  | nil => intro c hcapEq hinv id; exact hinv id
  | cons op rest ih =>
      intro c hcapEq hinv id
      simp only [List.foldl_cons]
      refine ih (addObjectWithDigest c op.1 op.2.1 op.2.2) ?_ ?_ id
      · simpa [addObjectWithDigest] using hcapEq
      · intro id2
        by_cases h : id2 = op.1
        · simp only [addObjectWithDigest, h, if_pos rfl]
          rw [hcapEq]
          exact lruPut_preserves cap _ _ _ hcap (hinv op.1).1 (hinv op.1).2
        · simp only [addObjectWithDigest, if_neg h]
          exact hinv id2

/-- C9: the object cache starts with per-id capacity 10000; for every
capacity at least 1 and every sequence of insertions from an empty cache,
no id ever holds two entries with the same digest and no id holds more than
the capacity; and with capacity 2, inserting digests `[1], [2], [3]` under
one id leaves exactly `{[3], [2]}` (LRU-evicting `[1]`), after which
re-inserting `[2]` only promotes it, leaving the same two entries. -/
theorem object_cache_dedup_and_capacity :
    ObjectCacheM.new.maxVersionsPerObject = 10000
    ∧ (∀ (cap : Nat) (ops : List (Nat × Nat × List Nat)) (id : Nat), 1 ≤ cap →
        (lruKeys ((ops.foldl (fun c op => addObjectWithDigest c op.1 op.2.1 op.2.2)
            (ObjectCacheM.withCapacity cap)).caches id)).Nodup
        ∧ ((ops.foldl (fun c op => addObjectWithDigest c op.1 op.2.1 op.2.2)
            (ObjectCacheM.withCapacity cap)).caches id).length ≤ cap)
    ∧ lruKeys ((addObjectWithDigest (addObjectWithDigest (addObjectWithDigest
        (ObjectCacheM.withCapacity 2) 1 10 [1]) 1 20 [2]) 1 30 [3]).caches 1)
        = [[3], [2]]
    ∧ lruKeys ((addObjectWithDigest (addObjectWithDigest (addObjectWithDigest
        (addObjectWithDigest (ObjectCacheM.withCapacity 2) 1 10 [1]) 1 20 [2])
        1 30 [3]) 1 21 [2]).caches 1) = [[2], [3]]
    ∧ ((addObjectWithDigest (addObjectWithDigest (addObjectWithDigest
        (addObjectWithDigest (ObjectCacheM.withCapacity 2) 1 10 [1]) 1 20 [2])
        1 30 [3]) 1 21 [2]).caches 1).length = 2 := by
  refine ⟨rfl, ?_, by decide, by decide, by decide⟩
  intro cap ops id hcap
  exact objectCache_fold_inv cap hcap ops (ObjectCacheM.withCapacity cap) rfl
    (fun _ => ⟨List.nodup_nil, by simp [ObjectCacheM.withCapacity]⟩) id

/-- C9 witness: the no-duplicate/bounded-capacity statement evaluated on a
concrete two-insertion sequence at capacity 2. -/
theorem object_cache_dedup_and_capacity_witness :
    (1 : Nat) ≤ 2
    ∧ ((lruKeys (([((1 : Nat), ((10 : Nat), ([1] : List Nat))),
          (1, (20, [2]))].foldl
          (fun c op => addObjectWithDigest c op.1 op.2.1 op.2.2)
          (ObjectCacheM.withCapacity 2)).caches 1)).Nodup
      ∧ (([((1 : Nat), ((10 : Nat), ([1] : List Nat))),
          (1, (20, [2]))].foldl
          (fun c op => addObjectWithDigest c op.1 op.2.1 op.2.2)
          (ObjectCacheM.withCapacity 2)).caches 1).length ≤ 2) :=
  ⟨by norm_num,
   object_cache_dedup_and_capacity.2.1 2
     [(1, (10, [1])), (1, (20, [2]))] 1 (by norm_num)⟩

theorem fuzzingLoopGo_first_violation
    (A : CoreAdapterM) (maxIterations initialParams i : Nat) (r : Nat)
    (h1 : 1 ≤ i) (h2 : i ≤ maxIterations)
    (hclean : ∀ j, 1 ≤ j → j < i →
      ∃ rj, A.execute (trajAux A maxIterations initialParams (j - 1)).params
          = .ok rj
        ∧ A.hasShiftViolations rj = false)
    (hexec : A.execute (trajAux A maxIterations initialParams (i - 1)).params
      = .ok r)
    (hvio : A.hasShiftViolations r = true) :
    ∀ (d j : Nat), j + d = i - 1 →
      fuzzingLoopGo A maxIterations (List.range' (j + 1) (maxIterations - j))
        (trajAux A maxIterations initialParams j) { execs := j, mutations := j }
      = .ok (FuzzingResultM.violationFound (A.extractViolations r) i,
          (if (A.extractObjectChanges r).isEmpty
            then trajAux A maxIterations initialParams (i - 1)
            else { trajAux A maxIterations initialParams (i - 1) with
              cache := processChanges A
                (trajAux A maxIterations initialParams (i - 1)).cache
                (A.extractObjectChanges r) }),
          { execs := i, mutations := i - 1 }) := by
  intro d
  induction d with
  | zero =>
      intro j hj
      have hji : j = i - 1 := by omega
      subst hji
      have hlen : maxIterations - (i - 1) = (maxIterations - i) + 1 := by omega
      rw [hlen, List.range'_succ]
      have hhead : i - 1 + 1 = i := by omega
      rw [hhead]
      simp only [fuzzingLoopGo]
      rw [hexec]
      simp only [hvio, if_true]
      rw [hhead]
  | succ d ih =>
      intro j hj
      obtain ⟨rj, hek, hnov⟩ := hclean (j + 1) (by omega) (by omega)
      have hj1 : j + 1 - 1 = j := by omega
      rw [hj1] at hek
      have hlen : maxIterations - j = (maxIterations - (j + 1)) + 1 := by omega
      rw [hlen, List.range'_succ]
      simp only [fuzzingLoopGo]
      rw [hek]
      have hlt : j + 1 < maxIterations := by omega
      simp only [hnov, Bool.false_eq_true, if_false, if_pos hlt]
      have hadv : iterAdvance A maxIterations (j + 1)
          (trajAux A maxIterations initialParams j)
          = (let st1 :=
              if (A.extractObjectChanges rj).isEmpty
                then trajAux A maxIterations initialParams j
                else { trajAux A maxIterations initialParams j with
                  cache := processChanges A
                    (trajAux A maxIterations initialParams j).cache
                    (A.extractObjectChanges rj) }
             { st1 with
               params := A.mutateParameters
                 (A.updateCachedObjects st1.params st1.cache.caches) }) := by
        simp only [iterAdvance]
        rw [hek]
        simp only [if_pos hlt]
      have hgoal := ih (j + 1) (by omega)
      rw [show j + 1 + 1 = j + 2 from rfl] at hgoal
      calc fuzzingLoopGo A maxIterations (List.range' (j + 1 + 1) (maxIterations - (j + 1)))
            (let st1 :=
              if (A.extractObjectChanges rj).isEmpty
                then trajAux A maxIterations initialParams j
                else { trajAux A maxIterations initialParams j with
                  cache := processChanges A
                    (trajAux A maxIterations initialParams j).cache
                    (A.extractObjectChanges rj) }
             { st1 with
               params := A.mutateParameters
                 (A.updateCachedObjects st1.params st1.cache.caches) })
            { execs := j + 1, mutations := j + 1 }
          = fuzzingLoopGo A maxIterations (List.range' (j + 2) (maxIterations - (j + 1)))
            (trajAux A maxIterations initialParams (j + 1))
            { execs := j + 1, mutations := j + 1 } := by
            rw [show trajAux A maxIterations initialParams (j + 1)
              = iterAdvance A maxIterations (j + 1)
                  (trajAux A maxIterations initialParams j) from rfl, hadv]
        _ = _ := hgoal

/-- C10: if iteration `i` is the first whose execution result contains a
shift violation (all earlier iterations execute successfully with no
violation), the core fuzzing loop returns `violation_found` with the
extracted violations and iteration number `i` immediately: exactly `i`
executions and `i - 1` mutation steps are performed, and the final state is
the iteration-`i` state updated only by that iteration's own cache update
(nothing runs after the violating iteration). -/
theorem core_fuzzer_stops_at_first_violation
    (A : CoreAdapterM) (maxIterations initialParams i : Nat) (r : Nat)
    (h1 : 1 ≤ i) (h2 : i ≤ maxIterations)
    (hclean : ∀ j, 1 ≤ j → j < i →
      ∃ rj, A.execute (trajAux A maxIterations initialParams (j - 1)).params
          = .ok rj
        ∧ A.hasShiftViolations rj = false)
    (hexec : A.execute (trajAux A maxIterations initialParams (i - 1)).params
      = .ok r)
    (hvio : A.hasShiftViolations r = true) :
    fuzzingLoop A maxIterations initialParams
      = .ok (FuzzingResultM.violationFound (A.extractViolations r) i,
          (if (A.extractObjectChanges r).isEmpty
            then trajAux A maxIterations initialParams (i - 1)
            else { trajAux A maxIterations initialParams (i - 1) with
              cache := processChanges A
                (trajAux A maxIterations initialParams (i - 1)).cache
                (A.extractObjectChanges r) }),
          { execs := i, mutations := i - 1 }) := by
  have h := fuzzingLoopGo_first_violation A maxIterations initialParams i r
    h1 h2 hclean hexec hvio (i - 1) 0 (by omega)
  simpa [fuzzingLoop, trajAux] using h

/-- C10 witness: with a concrete adapter whose violation fires on the third
iteration, the loop returns `violation_found` at iteration 3 after exactly
3 executions and 2 mutations. -/
theorem core_fuzzer_stops_at_first_violation_witness :
    fuzzingLoop c10Adapter 5 0
      = .ok (FuzzingResultM.violationFound (c10Adapter.extractViolations 2) 3,
          (if (c10Adapter.extractObjectChanges 2).isEmpty
            then trajAux c10Adapter 5 0 2
            else { trajAux c10Adapter 5 0 2 with
              cache := processChanges c10Adapter
                (trajAux c10Adapter 5 0 2).cache
                (c10Adapter.extractObjectChanges 2) }),
          { execs := 3, mutations := 2 }) :=
  core_fuzzer_stops_at_first_violation c10Adapter 5 0 3 2
    (by norm_num) (by norm_num)
    (by
      intro j hj1 hj2
      interval_cases j
      · exact ⟨0, rfl, rfl⟩
      · exact ⟨1, rfl, rfl⟩)
    rfl rfl

end MoveFuzzer
